import Mathlib

/-!
Shallow embedding of `MMCore/TaskSet_CopyMemory.cpp` (Micro-Manager),
the parallel memory-copy task set, together with proofs of its
specification properties.

Memory is modelled as a total map from byte addresses (`Nat`) to byte
values (`Nat`); pointers are base addresses.  `size_t` arithmetic is
modelled by `Nat`: for the inputs admitted by the preconditions
(`bytes > 0`, chunk offsets bounded by `bytes`) no `size_t` operation
in the source can wrap, so the embedding is exact there.

The base classes `Task`, `TaskSet`, `Semaphore` and `ThreadPool` are
declared in headers that are not part of the sources at hand; the one
operation of theirs that the copy code invokes in the parallel path
(`TaskSet::Execute`, which submits the used tasks to the pool) is
modelled from the spec and clearly marked as such.  Because the used
tasks write pairwise disjoint chunks (proved below), running them as a
sequential fold yields the same final memory as any parallel
interleaving, which is how the pool's concurrency is reduced to a
deterministic function.
-/

/-- Byte-addressed memory: address to byte value. -/
abbrev Mem : Type := Nat → Nat

/-- `std::memcpy(dst, src, bytes)` for non-overlapping ranges: every byte of
`[dst, dst+bytes)` receives the pre-call byte of `[src, src+bytes)` at the
same relative offset; all other addresses are untouched.  (On overlapping
ranges `std::memcpy` is undefined behaviour; all uses below are guarded by a
disjointness precondition.) -/
def memcpy (m : Mem) (dst src bytes : Nat) : Mem :=
  fun a => if dst ≤ a ∧ a < dst + bytes then m (src + (a - dst)) else m a

/-- Chunk offset computed by `ATask::Execute`:
`chunkOffset = taskIndex_ * (bytes_ / usedTaskCount_)` (the offset uses the
chunk size before the remainder is added). -/
def chunkOff (u b i : Nat) : Nat := i * (b / u)

/-- Chunk length computed by `ATask::Execute`:
`bytes_ / usedTaskCount_`, plus `bytes_ % usedTaskCount_` for the last task
(`taskIndex_ == usedTaskCount_ - 1`). -/
def chunkLen (u b i : Nat) : Nat := b / u + (if i = u - 1 then b % u else 0)

/-- `TaskSet_CopyMemory::ATask`: per-slot task state.  `taskIndex_` and
`usedTaskCount_` come from the `Task` base (`usedTaskCount_` is initialized
to the total task count at construction); `dst_`, `src_`, `bytes_` are the
per-invocation copy parameters. -/
structure TaskSet_CopyMemory.ATask where
  taskIndex_ : Nat
  usedTaskCount_ : Nat
  dst_ : Nat
  src_ : Nat
  bytes_ : Nat
deriving DecidableEq, Repr

/-- `ATask::ATask(semDone, taskIndex, totalTaskCount)`: `usedTaskCount_` is
first set to `totalTaskCount`; `dst_` and `src_` start as `NULL` (address 0)
and `bytes_` as 0. -/
def TaskSet_CopyMemory.ATask.create (taskIndex totalTaskCount : Nat) :
    TaskSet_CopyMemory.ATask :=
  { taskIndex_ := taskIndex
    usedTaskCount_ := totalTaskCount
    dst_ := 0
    src_ := 0
    bytes_ := 0 }

/-- `ATask::SetUp(dst, src, bytes, usedTaskCount)`: stores the invocation
parameters on the task slot. -/
def TaskSet_CopyMemory.ATask.SetUp (t : TaskSet_CopyMemory.ATask)
    (dst src bytes usedTaskCount : Nat) : TaskSet_CopyMemory.ATask :=
  { t with
    dst_ := dst
    src_ := src
    bytes_ := bytes
    usedTaskCount_ := usedTaskCount }

/-- `ATask::Execute()`: returns immediately when `taskIndex_ >=
usedTaskCount_`; otherwise copies its chunk
`[dst_ + chunkOffset, dst_ + chunkOffset + chunkBytes)` from the source at
the same offset. -/
def TaskSet_CopyMemory.ATask.Execute (t : TaskSet_CopyMemory.ATask)
    (m : Mem) : Mem :=
  if t.taskIndex_ ≥ t.usedTaskCount_ then m
  else
    memcpy m (t.dst_ + chunkOff t.usedTaskCount_ t.bytes_ t.taskIndex_)
      (t.src_ + chunkOff t.usedTaskCount_ t.bytes_ t.taskIndex_)
      (chunkLen t.usedTaskCount_ t.bytes_ t.taskIndex_)

/-- Observable interactions with the thread pool and the shared semaphore
during one invocation: how many tasks were submitted to the pool, how many
completion signals were raised, and the list of thresholds passed to
`Semaphore::Wait`. -/
structure Effects where
  poolSubmissions : Nat
  semSignals : Nat
  semWaits : List Nat
deriving DecidableEq, Repr

/-- The empty effect record at the start of an invocation. -/
def Effects.none : Effects := ⟨0, 0, []⟩

/-- `TaskSet_CopyMemory`: the fixed array of task slots (one per pool
thread) and the per-invocation used count. -/
structure TaskSet_CopyMemory where
  tasks_ : List TaskSet_CopyMemory.ATask
  usedTaskCount_ : Nat
deriving DecidableEq, Repr

/-- `TaskSet_CopyMemory::TaskSet_CopyMemory(pool)`: `CreateTasks<ATask>()`
creates one task per pool thread, task `i` with index `i` and total count
`n`; `usedTaskCount_` is first set to the pool size. -/
def TaskSet_CopyMemory.create (n : Nat) : TaskSet_CopyMemory :=
  { tasks_ := (List.range n).map (fun i => TaskSet_CopyMemory.ATask.create i n)
    usedTaskCount_ := n }

/-- `TaskSet_CopyMemory::SetUp(dst, src, bytes)`: computes
`usedTaskCount_ = min(1 + bytes / 1000000, tasks_.size())`; when the result
is 1 it performs the copy inline with `std::memcpy` and returns before the
per-task configuration loop, otherwise it configures every task slot. -/
def TaskSet_CopyMemory.SetUp (s : TaskSet_CopyMemory) (m : Mem)
    (dst src bytes : Nat) : TaskSet_CopyMemory × Mem :=
  let used := min (1 + bytes / 1000000) s.tasks_.length
  if used = 1 then
    ({ s with usedTaskCount_ := used }, memcpy m dst src bytes)
  else
    ({ tasks_ := s.tasks_.map (fun t => t.SetUp dst src bytes used)
       usedTaskCount_ := used }, m)

/-- Modelled from the spec: `TaskSet::Execute` (base class; its source is
not among the files at hand) submits each used task to the pool, and each
submitted task runs its `Execute` and signals the shared semaphore exactly
once on completion.  The parallel execution of the submitted tasks is
modelled as a sequential left fold; this is faithful because the used tasks
write pairwise disjoint chunks (proved below), so every interleaving
produces the same final memory. -/
def TaskSet_CopyMemory.ExecuteBase (s : TaskSet_CopyMemory) (m : Mem)
    (eff : Effects) : Mem × Effects :=
  ((s.tasks_.take s.usedTaskCount_).foldl (fun mm t => t.Execute mm) m,
   { eff with
     poolSubmissions := eff.poolSubmissions + s.usedTaskCount_
     semSignals := eff.semSignals + s.usedTaskCount_ })

/-- `TaskSet_CopyMemory::Execute()`: returns immediately when
`usedTaskCount_ == 1` (the copy already happened in `SetUp`), otherwise
calls `TaskSet::Execute()`. -/
def TaskSet_CopyMemory.Execute (s : TaskSet_CopyMemory) (m : Mem)
    (eff : Effects) : Mem × Effects :=
  if s.usedTaskCount_ = 1 then (m, eff)
  else s.ExecuteBase m eff

/-- `TaskSet_CopyMemory::Wait()`: returns immediately when
`usedTaskCount_ == 1`, otherwise calls `semaphore_->Wait(usedTaskCount_)`,
blocking until that many completion signals have been received (the
blocking itself is not modelled; the threshold passed is recorded). -/
def TaskSet_CopyMemory.Wait (s : TaskSet_CopyMemory) (eff : Effects) :
    Effects :=
  if s.usedTaskCount_ = 1 then eff
  else { eff with semWaits := eff.semWaits ++ [s.usedTaskCount_] }

/-- `TaskSet_CopyMemory::MemCopy(dst, src, bytes)`: `SetUp`, `Execute`,
`Wait` in sequence.  Returns the task set after the invocation, the final
memory, and the pool/semaphore interactions of this invocation. -/
def TaskSet_CopyMemory.MemCopy (s : TaskSet_CopyMemory) (m : Mem)
    (dst src bytes : Nat) : TaskSet_CopyMemory × Mem × Effects :=
  let sm := s.SetUp m dst src bytes
  let me := sm.1.Execute sm.2 Effects.none
  (sm.1, me.1, sm.1.Wait me.2)

/-- The two byte ranges `[dst, dst+bytes)` and `[src, src+bytes)` do not
overlap (the precondition of `MemCopy`). -/
def Disjoint_ranges (dst src bytes : Nat) : Prop :=
  dst + bytes ≤ src ∨ src + bytes ≤ dst

/-- Task slot `i` of the set holds index `i` (established by
`CreateTasks<ATask>()` and preserved by every `SetUp`). -/
def TaskSet_CopyMemory.Indexed (s : TaskSet_CopyMemory) : Prop :=
  ∀ i (h : i < s.tasks_.length), (s.tasks_.get ⟨i, h⟩).taskIndex_ = i

/-- Task index `i` covers relative offset `j` of the buffer: `j` lies in
chunk `i`. -/
def covers (u b i j : Nat) : Prop :=
  chunkOff u b i ≤ j ∧ j < chunkOff u b i + chunkLen u b i

open TaskSet_CopyMemory

/-- Auxiliary: `(u-1)*c + c = u*c` for positive `u`. -/
lemma pred_mul_add (u c : Nat) (hu : 0 < u) : (u - 1) * c + c = u * c := by
  cases u with
  | zero => omega
  | succ k => simp [Nat.succ_sub_one, Nat.succ_mul]

/-- Every chunk of an active task lies inside `[0, b)`. -/
lemma chunk_end_le (u b i : Nat) (hi : i < u) :
    chunkOff u b i + chunkLen u b i ≤ b := by
  have hdm : u * (b / u) + b % u = b := Nat.div_add_mod b u
  have hu : 0 < u := Nat.pos_of_ne_zero (by omega)
  unfold chunkOff chunkLen
  by_cases hlast : i = u - 1
  · have h1 : (u - 1) * (b / u) + b / u = u * (b / u) := pred_mul_add u _ hu
    subst hlast
    rw [if_pos rfl]
    omega
  · have h2 : (i + 1) * (b / u) ≤ u * (b / u) :=
      Nat.mul_le_mul_right _ (by omega)
    have h3 : i * (b / u) + b / u = (i + 1) * (b / u) := (Nat.succ_mul i _).symm
    rw [if_neg hlast]
    omega

/-- Existence half of the partition property: every offset `j < b` lies in
some chunk `i < u`. -/
lemma covers_exists (u b j : Nat) (hu : 0 < u) (hj : j < b) :
    ∃ i, i < u ∧ covers u b i j := by
  have hdm : u * (b / u) + b % u = b := Nat.div_add_mod b u
  by_cases hc : b / u = 0
  · rw [hc, Nat.mul_zero, Nat.zero_add] at hdm
    refine ⟨u - 1, by omega, ?_⟩
    unfold covers chunkOff chunkLen
    rw [hc, if_pos rfl]
    omega
  · have hcpos : 0 < b / u := Nat.pos_of_ne_zero hc
    have hq : (b / u) * (j / (b / u)) + j % (b / u) = j := Nat.div_add_mod j (b / u)
    have hrem : j % (b / u) < b / u := Nat.mod_lt _ hcpos
    by_cases hsmall : j / (b / u) ≤ u - 1
    · refine ⟨j / (b / u), by omega, ?_⟩
      unfold covers chunkOff
      have h1 : j / (b / u) * (b / u) ≤ j := Nat.div_mul_le_self j (b / u)
      have h4 : j / (b / u) * (b / u) = (b / u) * (j / (b / u)) := Nat.mul_comm _ _
      have h5 : b / u ≤ chunkLen u b (j / (b / u)) := Nat.le_add_right _ _
      omega
    · refine ⟨u - 1, by omega, ?_⟩
      unfold covers chunkOff chunkLen
      have h6 : (u - 1) * (b / u) ≤ (j / (b / u)) * (b / u) :=
        Nat.mul_le_mul_right _ (by omega)
      have h4 : j / (b / u) * (b / u) = (b / u) * (j / (b / u)) := Nat.mul_comm _ _
      have h1 : (u - 1) * (b / u) + b / u = u * (b / u) := pred_mul_add u _ hu
      rw [if_pos rfl]
      omega

/-- Two distinct chunk indices below `u` cannot both cover the same offset
(auxiliary, ordered case). -/
lemma covers_not_lt (u b : Nat) {i i' j : Nat} (hi' : i' < u) (hlt : i < i')
    (h : covers u b i j) (h' : covers u b i' j) : False := by
  have hne : i ≠ u - 1 := by omega
  obtain ⟨ha1, ha2⟩ := h
  obtain ⟨hb1, hb2⟩ := h'
  simp only [covers, chunkOff, chunkLen] at ha1 ha2 hb1
  rw [if_neg hne] at ha2
  have h3 : i * (b / u) + b / u = (i + 1) * (b / u) := (Nat.succ_mul i _).symm
  have h4 : (i + 1) * (b / u) ≤ i' * (b / u) :=
    Nat.mul_le_mul_right _ (by omega)
  omega

/-- Uniqueness half of the partition property: chunks do not overlap. -/
lemma covers_unique (u b : Nat) {i i' j : Nat} (hi : i < u) (hi' : i' < u)
    (h : covers u b i j) (h' : covers u b i' j) : i = i' := by
  rcases Nat.lt_trichotomy i i' with hlt | heq | hgt
  · exact absurd (covers_not_lt u b hi' hlt h h') (fun f => f)
  · exact heq
  · exact absurd (covers_not_lt u b hi hgt h' h) (fun f => f)

/-- A covered offset is a valid buffer offset. -/
lemma covers_lt_bytes (u b : Nat) {i j : Nat} (hi : i < u)
    (h : covers u b i j) : j < b :=
  Nat.lt_of_lt_of_le h.2 (chunk_end_le u b i hi)

/-- The last chunk's length is `b / u + b % u`. -/
lemma chunkLen_last (u b : Nat) : chunkLen u b (u - 1) = b / u + b % u := by
  unfold chunkLen
  rw [if_pos rfl]

/-- `memcpy` inside the destination range reads the source at the same
relative offset. -/
lemma memcpy_at_in (m : Mem) (dst src bytes a : Nat) (h1 : dst ≤ a)
    (h2 : a < dst + bytes) :
    memcpy m dst src bytes a = m (src + (a - dst)) := by
  unfold memcpy
  rw [if_pos ⟨h1, h2⟩]

/-- `memcpy` does not touch addresses outside the destination range. -/
lemma memcpy_at_out (m : Mem) (dst src bytes a : Nat)
    (h : a < dst ∨ dst + bytes ≤ a) :
    memcpy m dst src bytes a = m a := by
  unfold memcpy
  rw [if_neg (by omega)]

/-- Task `t` writes address `a` in this invocation: `t` is active
(`taskIndex_ < usedTaskCount_`) and `a` lies in its chunk. -/
def TaskSet_CopyMemory.ATask.writes (t : TaskSet_CopyMemory.ATask)
    (a : Nat) : Prop :=
  t.taskIndex_ < t.usedTaskCount_ ∧
  t.dst_ + chunkOff t.usedTaskCount_ t.bytes_ t.taskIndex_ ≤ a ∧
  a < t.dst_ + chunkOff t.usedTaskCount_ t.bytes_ t.taskIndex_ +
      chunkLen t.usedTaskCount_ t.bytes_ t.taskIndex_

instance (t : TaskSet_CopyMemory.ATask) (a : Nat) :
    Decidable (t.writes a) := by
  unfold TaskSet_CopyMemory.ATask.writes
  exact inferInstance

/-- Task slot `t` carries the invocation parameters `(dst, src, b, u)`. -/
def ConfiguredTask (t : TaskSet_CopyMemory.ATask)
    (dst src b u : Nat) : Prop :=
  t.dst_ = dst ∧ t.src_ = src ∧ t.bytes_ = b ∧ t.usedTaskCount_ = u

/-- Any address written by a configured task lies in `[dst, dst + b)`. -/
lemma writes_range {t : TaskSet_CopyMemory.ATask} {dst src b u a : Nat}
    (hc : ConfiguredTask t dst src b u) (hw : t.writes a) :
    dst ≤ a ∧ a < dst + b := by
  obtain ⟨hd, hs, hb, hu⟩ := hc
  obtain ⟨hw1, hw2, hw3⟩ := hw
  have hend := chunk_end_le t.usedTaskCount_ t.bytes_ t.taskIndex_ hw1
  omega

/-- `ATask::Execute` leaves every address outside `[dst, dst + b)`
unchanged. -/
lemma exec_preserves_outside {t : TaskSet_CopyMemory.ATask}
    {dst src b u : Nat} (hc : ConfiguredTask t dst src b u) (m : Mem)
    {x : Nat} (hx : x < dst ∨ dst + b ≤ x) :
    t.Execute m x = m x := by
  obtain ⟨hd, hs, hb, hu⟩ := hc
  unfold TaskSet_CopyMemory.ATask.Execute
  by_cases hidx : t.taskIndex_ ≥ t.usedTaskCount_
  · rw [if_pos hidx]
  · rw [if_neg hidx]
    have hend := chunk_end_le t.usedTaskCount_ t.bytes_ t.taskIndex_
      (by omega)
    exact memcpy_at_out m _ _ _ x (by omega)

/-- At an address it writes, `ATask::Execute` installs the source byte at
the same relative offset of the whole buffer. -/
lemma exec_at_writes {t : TaskSet_CopyMemory.ATask} {dst src b u : Nat}
    (hc : ConfiguredTask t dst src b u) (m : Mem) {a : Nat}
    (hw : t.writes a) :
    t.Execute m a = m (src + (a - dst)) := by
  obtain ⟨hd, hs, hb, hu⟩ := hc
  obtain ⟨hw1, hw2, hw3⟩ := hw
  unfold TaskSet_CopyMemory.ATask.Execute
  rw [if_neg (by omega)]
  rw [memcpy_at_in m _ _ _ a hw2 hw3]
  congr 1
  omega

/-- At an address it does not write, `ATask::Execute` changes nothing. -/
lemma exec_at_not_writes (t : TaskSet_CopyMemory.ATask) (m : Mem)
    {a : Nat} (hnw : ¬ t.writes a) :
    t.Execute m a = m a := by
  unfold TaskSet_CopyMemory.ATask.Execute
  by_cases hidx : t.taskIndex_ ≥ t.usedTaskCount_
  · rw [if_pos hidx]
  · rw [if_neg hidx]
    unfold TaskSet_CopyMemory.ATask.writes at hnw
    exact memcpy_at_out m _ _ _ a (by omega)

/-- Characterization of the fold of `ATask::Execute` over tasks all
configured with the same invocation parameters: an address ends up holding
the source byte at its relative offset iff some task in the list writes it,
and is untouched otherwise.  The `dst`/`src` disjointness guarantees that
every task reads the original source bytes. -/
lemma foldl_exec_char (dst src b u : Nat)
    (hdisj : Disjoint_ranges dst src b)
    (ts : List TaskSet_CopyMemory.ATask)
    (hconf : ∀ t ∈ ts, ConfiguredTask t dst src b u) (m : Mem) (a : Nat) :
    (ts.foldl (fun mm t => t.Execute mm) m) a =
      if ∃ t ∈ ts, t.writes a then m (src + (a - dst)) else m a := by
  induction ts generalizing m with
  | nil => simp
  | cons t ts ih =>
    have hct : ConfiguredTask t dst src b u := hconf t (List.mem_cons_self t ts)
    have hcts : ∀ t' ∈ ts, ConfiguredTask t' dst src b u :=
      fun t' ht' => hconf t' (List.mem_cons_of_mem t ht')
    rw [List.foldl_cons, ih hcts]
    by_cases hex : ∃ t' ∈ ts, t'.writes a
    · obtain ⟨t', ht'mem, ht'w⟩ := hex
      rw [if_pos ⟨t', ht'mem, ht'w⟩]
      have hrange := writes_range (hcts t' ht'mem) ht'w
      have hout : src + (a - dst) < dst ∨ dst + b ≤ src + (a - dst) := by
        unfold Disjoint_ranges at hdisj
        omega
      rw [exec_preserves_outside hct m hout]
      rw [if_pos ⟨t', List.mem_cons_of_mem t ht'mem, ht'w⟩]
    · rw [if_neg hex]
      by_cases hw : t.writes a
      · rw [exec_at_writes hct m hw,
          if_pos ⟨t, List.mem_cons_self t ts, hw⟩]
      · have hnall : ¬ ∃ t' ∈ t :: ts, t'.writes a := by
          intro hcon
          obtain ⟨t', ht'mem, ht'w⟩ := hcon
          rcases List.mem_cons.mp ht'mem with heq | hmem
          · exact hw (heq ▸ ht'w)
          · exact hex ⟨t', hmem, ht'w⟩
        rw [exec_at_not_writes t m hw, if_neg hnall]

/-- The used count stored by `SetUp` is `min(1 + bytes / 1000000,
tasks_.size())` on both paths. -/
lemma SetUp_used (s : TaskSet_CopyMemory) (m : Mem) (dst src bytes : Nat) :
    ((s.SetUp m dst src bytes).1).usedTaskCount_ =
      min (1 + bytes / 1000000) s.tasks_.length := by
  unfold TaskSet_CopyMemory.SetUp
  dsimp only
  split <;> rfl

/-- `SetUp` never changes the number of task slots. -/
lemma SetUp_tasks_length (s : TaskSet_CopyMemory) (m : Mem)
    (dst src bytes : Nat) :
    ((s.SetUp m dst src bytes).1).tasks_.length = s.tasks_.length := by
  unfold TaskSet_CopyMemory.SetUp
  dsimp only
  split
  · rfl
  · simp

/-- `SetUp` preserves the slot-index invariant. -/
lemma SetUp_indexed {s : TaskSet_CopyMemory} (hidx : s.Indexed) (m : Mem)
    (dst src bytes : Nat) : ((s.SetUp m dst src bytes).1).Indexed := by
  unfold TaskSet_CopyMemory.SetUp
  dsimp only
  split
  · exact hidx
  · intro i h
    have hlen : i < s.tasks_.length := by simpa using h
    simp only [TaskSet_CopyMemory.Indexed, List.get_eq_getElem] at *
    rw [List.getElem_map]
    exact hidx i hlen

/-- On the parallel path every task slot ends up configured with the
invocation parameters. -/
lemma SetUp_parallel_config {s : TaskSet_CopyMemory} (m : Mem)
    {dst src bytes : Nat}
    (hne : ¬ min (1 + bytes / 1000000) s.tasks_.length = 1) :
    ∀ t ∈ ((s.SetUp m dst src bytes).1).tasks_,
      ConfiguredTask t dst src bytes
        (min (1 + bytes / 1000000) s.tasks_.length) := by
  unfold TaskSet_CopyMemory.SetUp
  dsimp only
  rw [if_neg hne]
  intro t ht
  obtain ⟨t0, _, rfl⟩ := List.mem_map.mp ht
  exact ⟨rfl, rfl, rfl, rfl⟩

/-- On the parallel path `SetUp` does not touch memory. -/
lemma SetUp_parallel_mem {s : TaskSet_CopyMemory} (m : Mem)
    {dst src bytes : Nat}
    (hne : ¬ min (1 + bytes / 1000000) s.tasks_.length = 1) :
    (s.SetUp m dst src bytes).2 = m := by
  unfold TaskSet_CopyMemory.SetUp
  dsimp only
  rw [if_neg hne]

/-- On the degenerate path `SetUp` performs the copy itself and leaves the
task slots untouched. -/
lemma SetUp_degenerate {s : TaskSet_CopyMemory} (m : Mem)
    {dst src bytes : Nat}
    (h1 : min (1 + bytes / 1000000) s.tasks_.length = 1) :
    (s.SetUp m dst src bytes) =
      ({ s with usedTaskCount_ := 1 }, memcpy m dst src bytes) := by
  unfold TaskSet_CopyMemory.SetUp
  dsimp only
  rw [if_pos h1, h1]

/-- In an `Indexed` set, the used-prefix contains a slot for every index
below `u`. -/
lemma take_mem_index {s1 : TaskSet_CopyMemory} (hidx : s1.Indexed)
    {u i : Nat} (hu : u ≤ s1.tasks_.length) (hi : i < u) :
    ∃ t ∈ s1.tasks_.take u, t.taskIndex_ = i := by
  have hlen : i < (s1.tasks_.take u).length := by
    simp only [List.length_take]
    omega
  refine ⟨(s1.tasks_.take u).get ⟨i, hlen⟩, List.get_mem _ _ hlen, ?_⟩
  simp only [List.get_eq_getElem, List.getElem_take]
  exact hidx i (by omega)

/-- A configured task with index `i` writes exactly the addresses whose
relative offset is covered by chunk `i`. -/
lemma writes_of_covers {t : TaskSet_CopyMemory.ATask}
    {dst src b u i a : Nat} (hc : ConfiguredTask t dst src b u)
    (hti : t.taskIndex_ = i) (hi : i < u) (ha : dst ≤ a)
    (hcov : covers u b i (a - dst)) : t.writes a := by
  obtain ⟨hd, hs, hb, hu⟩ := hc
  obtain ⟨hc1, hc2⟩ := hcov
  unfold TaskSet_CopyMemory.ATask.writes
  rw [hti, hd, hb, hu]
  omega

/-- After `SetUp` and `Execute`, memory equals a single whole-buffer
`memcpy`: the copy is complete and touches nothing else.  This is the
central functional-correctness lemma, covering both the degenerate inline
path and the parallel chunked path. -/
lemma SetUp_Execute_mem (s : TaskSet_CopyMemory) (hidx : s.Indexed)
    (hn : 0 < s.tasks_.length) (m : Mem) (dst src bytes : Nat)
    (hdisj : Disjoint_ranges dst src bytes) (eff : Effects) :
    ((s.SetUp m dst src bytes).1.Execute (s.SetUp m dst src bytes).2 eff).1 =
      memcpy m dst src bytes := by
  by_cases hu1 : min (1 + bytes / 1000000) s.tasks_.length = 1
  · rw [SetUp_degenerate m hu1]
    unfold TaskSet_CopyMemory.Execute
    rw [if_pos rfl]
  · have hused := SetUp_used s m dst src bytes
    have hupos : 0 < min (1 + bytes / 1000000) s.tasks_.length := by omega
    have hulen : min (1 + bytes / 1000000) s.tasks_.length ≤
        s.tasks_.length := Nat.min_le_right _ _
    unfold TaskSet_CopyMemory.Execute
    rw [if_neg (by rw [hused]; exact hu1)]
    unfold TaskSet_CopyMemory.ExecuteBase
    dsimp only
    rw [SetUp_parallel_mem m hu1]
    funext a
    have hconf : ∀ t ∈ ((s.SetUp m dst src bytes).1).tasks_.take
        ((s.SetUp m dst src bytes).1).usedTaskCount_,
        ConfiguredTask t dst src bytes
          (min (1 + bytes / 1000000) s.tasks_.length) :=
      fun t ht =>
        SetUp_parallel_config m hu1 t (List.mem_of_mem_take ht)
    rw [foldl_exec_char dst src bytes
      (min (1 + bytes / 1000000) s.tasks_.length) hdisj _ hconf m a]
    by_cases hin : dst ≤ a ∧ a < dst + bytes
    · obtain ⟨i, hilt, hcov⟩ := covers_exists
        (min (1 + bytes / 1000000) s.tasks_.length) bytes (a - dst) hupos
        (by omega)
      obtain ⟨t, htmem, hti⟩ := take_mem_index
        (SetUp_indexed hidx m dst src bytes)
        (u := ((s.SetUp m dst src bytes).1).usedTaskCount_)
        (by rw [hused, SetUp_tasks_length]; exact hulen)
        (i := i) (by rw [hused]; exact hilt)
      have hw : t.writes a :=
        writes_of_covers (hconf t htmem) hti hilt hin.1 hcov
      rw [if_pos ⟨t, htmem, hw⟩, memcpy_at_in m dst src bytes a hin.1 hin.2]
    · have hnex : ¬ ∃ t ∈ ((s.SetUp m dst src bytes).1).tasks_.take
          ((s.SetUp m dst src bytes).1).usedTaskCount_, t.writes a := by
        intro hcon
        obtain ⟨t, htmem, htw⟩ := hcon
        exact hin (writes_range (hconf t htmem) htw)
      rw [if_neg hnex, memcpy_at_out m dst src bytes a (by omega)]

/-- `MemCopy` realizes exactly a whole-buffer `memcpy` on memory. -/
lemma MemCopy_mem (s : TaskSet_CopyMemory) (hidx : s.Indexed)
    (hn : 0 < s.tasks_.length) (m : Mem) (dst src bytes : Nat)
    (hdisj : Disjoint_ranges dst src bytes) :
    (s.MemCopy m dst src bytes).2.1 = memcpy m dst src bytes := by
  unfold TaskSet_CopyMemory.MemCopy
  dsimp only
  exact SetUp_Execute_mem s hidx hn m dst src bytes hdisj Effects.none

/-- The constructed task set has one slot per pool thread. -/
lemma create_tasks_length (n : Nat) :
    (TaskSet_CopyMemory.create n).tasks_.length = n := by
  simp [TaskSet_CopyMemory.create]

/-- The constructed task set satisfies the slot-index invariant. -/
lemma create_indexed (n : Nat) : (TaskSet_CopyMemory.create n).Indexed := by
  intro i h
  simp only [TaskSet_CopyMemory.create, List.get_eq_getElem,
    List.getElem_map, List.getElem_range]
  rfl

/-- Re-running a whole-buffer `memcpy` on non-overlapping ranges changes
nothing: the source range was untouched by the first copy. -/
lemma memcpy_idem (m : Mem) (dst src bytes : Nat)
    (hdisj : Disjoint_ranges dst src bytes) :
    memcpy (memcpy m dst src bytes) dst src bytes =
      memcpy m dst src bytes := by
  funext a
  by_cases h : dst ≤ a ∧ a < dst + bytes
  · rw [memcpy_at_in _ dst src bytes a h.1 h.2,
      memcpy_at_in m dst src bytes a h.1 h.2,
      memcpy_at_out m dst src bytes _
        (by unfold Disjoint_ranges at hdisj; omega)]
  · exact memcpy_at_out _ dst src bytes a (by omega)

/-- Shape of the state produced by the parallel path of `SetUp`. -/
lemma SetUp_parallel_fst {s : TaskSet_CopyMemory} (m : Mem)
    {dst src bytes : Nat}
    (hne : ¬ min (1 + bytes / 1000000) s.tasks_.length = 1) :
    (s.SetUp m dst src bytes).1 =
      { tasks_ := s.tasks_.map (fun t =>
          t.SetUp dst src bytes (min (1 + bytes / 1000000) s.tasks_.length))
        usedTaskCount_ := min (1 + bytes / 1000000) s.tasks_.length } := by
  unfold TaskSet_CopyMemory.SetUp
  dsimp only
  rw [if_neg hne]

/-- Configuring a task slot twice with the same parameters equals
configuring it once. -/
lemma ATask_SetUp_idem (t : TaskSet_CopyMemory.ATask)
    (dst src bytes u : Nat) :
    (t.SetUp dst src bytes u).SetUp dst src bytes u =
      t.SetUp dst src bytes u := rfl

/-- A second `SetUp` with identical arguments reproduces exactly the same
task-set state. -/
lemma SetUp_SetUp_fst (s : TaskSet_CopyMemory) (m m2 : Mem)
    (dst src bytes : Nat) :
    (((s.SetUp m dst src bytes).1).SetUp m2 dst src bytes).1 =
      (s.SetUp m dst src bytes).1 := by
  by_cases hu1 : min (1 + bytes / 1000000) s.tasks_.length = 1
  · rw [SetUp_degenerate m hu1]
    dsimp only
    rw [@SetUp_degenerate ⟨s.tasks_, 1⟩ m2 dst src bytes hu1]
  · rw [SetUp_parallel_fst m hu1]
    rw [SetUp_parallel_fst m2 (by simpa using hu1)]
    simp only [List.length_map, List.map_map]
    congr 1

/-- `Execute` is a no-op when the used count is 1. -/
lemma Execute_noop {s : TaskSet_CopyMemory} (h : s.usedTaskCount_ = 1)
    (m : Mem) (eff : Effects) : s.Execute m eff = (m, eff) := by
  unfold TaskSet_CopyMemory.Execute
  rw [if_pos h]

/-- `Wait` is a no-op when the used count is 1. -/
lemma Wait_noop {s : TaskSet_CopyMemory} (h : s.usedTaskCount_ = 1)
    (eff : Effects) : s.Wait eff = eff := by
  unfold TaskSet_CopyMemory.Wait
  rw [if_pos h]

/-- The task-set state returned by `MemCopy` is the state after `SetUp`. -/
lemma MemCopy_fst (s : TaskSet_CopyMemory) (m : Mem)
    (dst src bytes : Nat) :
    (s.MemCopy m dst src bytes).1 = (s.SetUp m dst src bytes).1 := rfl

/-- The pool/semaphore interactions of a `MemCopy` invocation, as a
function of the used count chosen by its `SetUp`: none at all on the
degenerate path, and `usedTaskCount` submissions, `usedTaskCount` signals
and a single wait with threshold `usedTaskCount` on the parallel path. -/
lemma MemCopy_eff (s : TaskSet_CopyMemory) (m : Mem)
    (dst src bytes : Nat) :
    (s.MemCopy m dst src bytes).2.2 =
      (if (s.SetUp m dst src bytes).1.usedTaskCount_ = 1 then Effects.none
       else ⟨(s.SetUp m dst src bytes).1.usedTaskCount_,
             (s.SetUp m dst src bytes).1.usedTaskCount_,
             [(s.SetUp m dst src bytes).1.usedTaskCount_]⟩) := by
  unfold TaskSet_CopyMemory.MemCopy TaskSet_CopyMemory.Execute
    TaskSet_CopyMemory.ExecuteBase TaskSet_CopyMemory.Wait
  dsimp only
  by_cases h : (s.SetUp m dst src bytes).1.usedTaskCount_ = 1
  · simp [h, Effects.none]
  · simp [h, Effects.none]

/-- Running `MemCopy` a second time with the same arguments, from the state
and memory produced by the first run, reproduces exactly the same state,
memory and per-invocation effects. -/
lemma MemCopy_fix (s : TaskSet_CopyMemory) (hidx : s.Indexed)
    (hn : 0 < s.tasks_.length) (m : Mem) (dst src bytes : Nat)
    (hdisj : Disjoint_ranges dst src bytes) :
    ((s.MemCopy m dst src bytes).1).MemCopy (s.MemCopy m dst src bytes).2.1
        dst src bytes = s.MemCopy m dst src bytes := by
  have hidx1 : ((s.SetUp m dst src bytes).1).Indexed :=
    SetUp_indexed hidx m dst src bytes
  have hn1 : 0 < ((s.SetUp m dst src bytes).1).tasks_.length := by
    rw [SetUp_tasks_length]
    exact hn
  have hm1 : (s.MemCopy m dst src bytes).2.1 = memcpy m dst src bytes :=
    MemCopy_mem s hidx hn m dst src bytes hdisj
  have h1 : (((s.MemCopy m dst src bytes).1).MemCopy
      (s.MemCopy m dst src bytes).2.1 dst src bytes).1 =
      (s.MemCopy m dst src bytes).1 := by
    rw [MemCopy_fst, MemCopy_fst, SetUp_SetUp_fst]
  have h2 : (((s.MemCopy m dst src bytes).1).MemCopy
      (s.MemCopy m dst src bytes).2.1 dst src bytes).2.1 =
      (s.MemCopy m dst src bytes).2.1 := by
    rw [MemCopy_fst, hm1,
      MemCopy_mem ((s.SetUp m dst src bytes).1) hidx1 hn1
        (memcpy m dst src bytes) dst src bytes hdisj,
      memcpy_idem m dst src bytes hdisj]
  have h3 : (((s.MemCopy m dst src bytes).1).MemCopy
      (s.MemCopy m dst src bytes).2.1 dst src bytes).2.2 =
      (s.MemCopy m dst src bytes).2.2 := by
    rw [MemCopy_eff, MemCopy_eff, MemCopy_fst, SetUp_SetUp_fst]
  exact Prod.ext h1 (Prod.ext h2 h3)

/-- For a positive used count, an offset is a valid buffer offset iff it is
covered by exactly one chunk. -/
lemma chunks_cover_exactly_once (u b : Nat) (hu : 0 < u) (j : Nat) :
    j < b ↔ ∃! i, i < u ∧ covers u b i j := by
  constructor
  · intro hj
    obtain ⟨i, hi, hc⟩ := covers_exists u b j hu hj
    refine ⟨i, ⟨hi, hc⟩, ?_⟩
    rintro i' ⟨hi', hc'⟩
    exact covers_unique u b hi' hi hc' hc
  · rintro ⟨i, ⟨hi, hc⟩, -⟩
    exact covers_lt_bytes u b hi hc

/-- C1: for every pool size `n ≥ 1` and all `dst`, `src`, `bytes`
satisfying the precondition (non-null pointers, `bytes > 0`,
non-overlapping ranges), after `MemCopy(dst, src, bytes)` every byte of
`dst[0..bytes)` equals the pre-call byte of `src[0..bytes)` at the same
offset — for every value of `bytes`, below-threshold, at-threshold and
multi-chunk alike. -/
theorem C1_memcopy_correct (n : Nat) (m : Mem) (dst src bytes : Nat)
    (hn : 1 ≤ n) (hdst : dst ≠ 0) (hsrc : src ≠ 0) (hbytes : 0 < bytes)
    (hdisj : Disjoint_ranges dst src bytes) :
    ∀ j < bytes,
      ((TaskSet_CopyMemory.create n).MemCopy m dst src bytes).2.1 (dst + j) =
        m (src + j) := by
  intro j hj
  rw [MemCopy_mem _ (create_indexed n)
    (by rw [create_tasks_length]; omega) m dst src bytes hdisj]
  rw [memcpy_at_in m dst src bytes (dst + j) (by omega) (by omega)]
  congr 1
  omega

/-- Witness for C1 at a concrete input. -/
theorem C1_memcopy_correct_witness :
    ((TaskSet_CopyMemory.create 4).MemCopy (fun a => a + 7) 1 2 1).2.1 (1 + 0) =
      (fun a => a + 7) (2 + 0) :=
  C1_memcopy_correct 4 (fun a => a + 7) 1 2 1 (by decide) (by decide)
    (by decide) (by decide) (by unfold Disjoint_ranges; omega) 0 (by decide)

/-- C2: `SetUp` computes `usedTaskCount = min(1 + bytes / 1000000,
poolSize)` with integer division and threshold constant 1,000,000. -/
theorem C2_used_count_formula (n : Nat) (m : Mem) (dst src bytes : Nat)
    (hn : 1 ≤ n) (hbytes : 0 < bytes) :
    (((TaskSet_CopyMemory.create n).SetUp m dst src bytes).1).usedTaskCount_ =
      min (1 + bytes / 1000000) n := by
  rw [SetUp_used, create_tasks_length]

/-- Witness for C2 at a concrete input. -/
theorem C2_used_count_formula_witness :
    (((TaskSet_CopyMemory.create 2).SetUp (fun a => a) 3 9 2500000).1).usedTaskCount_ =
      min (1 + 2500000 / 1000000) 2 :=
  C2_used_count_formula 2 (fun a => a) 3 9 2500000 (by decide) (by decide)

/-- C3: for every `bytes > 0` and `usedTaskCount > 1`, every offset `j` is
a valid buffer offset (`j < bytes`) iff it lies in exactly one chunk — the
chunks cover `[0, bytes)` with no gaps and no overlaps — and the last
chunk's length equals `bytes / usedTaskCount + bytes % usedTaskCount`. -/
theorem C3_partition (bytes u j : Nat) (hb : 0 < bytes) (hu : 1 < u) :
    (j < bytes ↔ ∃! i, i < u ∧ covers u bytes i j) ∧
      chunkLen u bytes (u - 1) = bytes / u + bytes % u :=
  ⟨chunks_cover_exactly_once u bytes (by omega) j, chunkLen_last u bytes⟩

/-- Witness for C3 at a concrete input. -/
theorem C3_partition_witness :
    (2 < 5 ↔ ∃! i, i < 3 ∧ covers 3 5 i 2) ∧
      chunkLen 3 5 (3 - 1) = 5 / 3 + 5 % 3 :=
  C3_partition 5 3 2 (by decide) (by decide)

/-- C4: whenever `SetUp` chooses `usedTaskCount == 1` (in particular for
every `bytes < 1000000`), the whole copy happens synchronously inside
`SetUp`; the subsequent `Execute` and `Wait` calls return their inputs
unchanged; the invocation performs zero pool submissions, zero semaphore
signals and no semaphore wait; and the final memory is exactly that of one
direct single-threaded `memcpy`. -/
theorem C4_degenerate_path (n : Nat) (m : Mem) (dst src bytes : Nat)
    (hn : 1 ≤ n) (hbytes : 0 < bytes)
    (h1 : bytes < 1000000 ∨ min (1 + bytes / 1000000) n = 1) :
    ((TaskSet_CopyMemory.create n).SetUp m dst src bytes).2 =
        memcpy m dst src bytes ∧
    (((TaskSet_CopyMemory.create n).SetUp m dst src bytes).1).Execute
        ((TaskSet_CopyMemory.create n).SetUp m dst src bytes).2 Effects.none =
        (((TaskSet_CopyMemory.create n).SetUp m dst src bytes).2,
          Effects.none) ∧
    (((TaskSet_CopyMemory.create n).SetUp m dst src bytes).1).Wait
        Effects.none = Effects.none ∧
    ((TaskSet_CopyMemory.create n).MemCopy m dst src bytes).2.1 =
        memcpy m dst src bytes ∧
    ((TaskSet_CopyMemory.create n).MemCopy m dst src bytes).2.2 =
        Effects.none := by
  have h1' : min (1 + bytes / 1000000)
      (TaskSet_CopyMemory.create n).tasks_.length = 1 := by
    rw [create_tasks_length]
    rcases h1 with hlt | heq
    · have hz : bytes / 1000000 = 0 := Nat.div_eq_of_lt hlt
      omega
    · exact heq
  have hsd := @SetUp_degenerate (TaskSet_CopyMemory.create n) m dst src bytes h1'
  have hused :
      (((TaskSet_CopyMemory.create n).SetUp m dst src bytes).1).usedTaskCount_ = 1 := by
    rw [hsd]
  refine ⟨by rw [hsd], Execute_noop hused _ _, Wait_noop hused _, ?_, ?_⟩
  · unfold TaskSet_CopyMemory.MemCopy
    dsimp only
    rw [Execute_noop hused]
    rw [hsd]
  · unfold TaskSet_CopyMemory.MemCopy
    dsimp only
    rw [Execute_noop hused]
    dsimp only
    rw [Wait_noop hused]

/-- Witness for C4 at the spec's below-threshold scenario
(`bytes = 500000`). -/
theorem C4_degenerate_path_witness :
    ((TaskSet_CopyMemory.create 4).SetUp (fun a => a) 1 600000 500000).2 =
        memcpy (fun a => a) 1 600000 500000 ∧
    (((TaskSet_CopyMemory.create 4).SetUp (fun a => a) 1 600000 500000).1).Execute
        ((TaskSet_CopyMemory.create 4).SetUp (fun a => a) 1 600000 500000).2
        Effects.none =
        (((TaskSet_CopyMemory.create 4).SetUp (fun a => a) 1 600000 500000).2,
          Effects.none) ∧
    (((TaskSet_CopyMemory.create 4).SetUp (fun a => a) 1 600000 500000).1).Wait
        Effects.none = Effects.none ∧
    ((TaskSet_CopyMemory.create 4).MemCopy (fun a => a) 1 600000 500000).2.1 =
        memcpy (fun a => a) 1 600000 500000 ∧
    ((TaskSet_CopyMemory.create 4).MemCopy (fun a => a) 1 600000 500000).2.2 =
        Effects.none :=
  C4_degenerate_path 4 (fun a => a) 1 600000 500000 (by decide) (by decide)
    (Or.inl (by decide))

/-- C5: a task whose index is at least the used count returns immediately
from `Execute`, writing no byte: memory is returned unchanged (and the
task's own state is read-only during `Execute`). -/
theorem C5_unused_task_noop (t : TaskSet_CopyMemory.ATask) (m : Mem)
    (h : t.taskIndex_ ≥ t.usedTaskCount_) : t.Execute m = m := by
  unfold TaskSet_CopyMemory.ATask.Execute
  rw [if_pos h]

/-- Witness for C5 at a concrete task and memory. -/
theorem C5_unused_task_noop_witness :
    TaskSet_CopyMemory.ATask.Execute ⟨5, 3, 11, 220, 9⟩ (fun a => 2 * a) =
      (fun a => 2 * a) :=
  C5_unused_task_noop ⟨5, 3, 11, 220, 9⟩ (fun a => 2 * a) (by decide)

/-- C6: after `SetUp`, `1 ≤ usedTaskCount ≤ pool size` for every
`bytes > 0` and pool size `n ≥ 1`. -/
theorem C6_used_count_bounds (n : Nat) (m : Mem) (dst src bytes : Nat)
    (hn : 1 ≤ n) (hbytes : 0 < bytes) :
    1 ≤ (((TaskSet_CopyMemory.create n).SetUp m dst src bytes).1).usedTaskCount_ ∧
      (((TaskSet_CopyMemory.create n).SetUp m dst src bytes).1).usedTaskCount_ ≤ n := by
  rw [SetUp_used, create_tasks_length]
  omega

/-- Witness for C6 at a concrete input. -/
theorem C6_used_count_bounds_witness :
    1 ≤ (((TaskSet_CopyMemory.create 3).SetUp (fun a => a) 5 50 7000000).1).usedTaskCount_ ∧
      (((TaskSet_CopyMemory.create 3).SetUp (fun a => a) 5 50 7000000).1).usedTaskCount_ ≤ 3 :=
  C6_used_count_bounds 3 (fun a => a) 5 50 7000000 (by decide) (by decide)

/-- C7: on the parallel path (`usedTaskCount > 1`) the invocation performs
exactly one semaphore wait, whose threshold equals the `usedTaskCount`
chosen by `SetUp` for that invocation. -/
theorem C7_wait_threshold (n : Nat) (m : Mem) (dst src bytes : Nat)
    (h : 1 < (((TaskSet_CopyMemory.create n).SetUp m dst src bytes).1).usedTaskCount_) :
    ((TaskSet_CopyMemory.create n).MemCopy m dst src bytes).2.2.semWaits =
      [(((TaskSet_CopyMemory.create n).SetUp m dst src bytes).1).usedTaskCount_] := by
  rw [MemCopy_eff, if_neg (by omega)]

/-- Witness for C7 at a concrete at-threshold input (`usedTaskCount = 2`). -/
theorem C7_wait_threshold_witness :
    ((TaskSet_CopyMemory.create 2).MemCopy (fun a => a) 0 2000000 1000000).2.2.semWaits =
      [(((TaskSet_CopyMemory.create 2).SetUp (fun a => a) 0 2000000 1000000).1).usedTaskCount_] :=
  C7_wait_threshold 2 (fun a => a) 0 2000000 1000000 (by decide)

/-- C8: `MemCopy` is idempotent: invoking it again with the same arguments
from the state and memory left by a first invocation reproduces exactly
the same state, final memory and per-invocation effects, so any number of
repetitions leaves `dst` as a single invocation does. -/
theorem C8_idempotent (n : Nat) (m : Mem) (dst src bytes : Nat)
    (hn : 1 ≤ n) (hdst : dst ≠ 0) (hsrc : src ≠ 0) (hbytes : 0 < bytes)
    (hdisj : Disjoint_ranges dst src bytes) :
    ((TaskSet_CopyMemory.create n).MemCopy m dst src bytes).1.MemCopy
        ((TaskSet_CopyMemory.create n).MemCopy m dst src bytes).2.1
        dst src bytes =
      (TaskSet_CopyMemory.create n).MemCopy m dst src bytes :=
  MemCopy_fix _ (create_indexed n) (by rw [create_tasks_length]; omega)
    m dst src bytes hdisj

/-- Witness for C8 at a concrete input. -/
theorem C8_idempotent_witness :
    ((TaskSet_CopyMemory.create 1).MemCopy (fun a => a) 1 2 1).1.MemCopy
        ((TaskSet_CopyMemory.create 1).MemCopy (fun a => a) 1 2 1).2.1 1 2 1 =
      (TaskSet_CopyMemory.create 1).MemCopy (fun a => a) 1 2 1 :=
  C8_idempotent 1 (fun a => a) 1 2 1 (by decide) (by decide) (by decide)
    (by decide) (by unfold Disjoint_ranges; omega)

/-- C9: concrete scenario with pool size 4 and `bytes = 3,500,000`:
`SetUp` chooses `usedTaskCount = min(1 + 3, 4) = 4`; tasks 0-2 copy chunks
of exactly 875,000 bytes at offsets 0, 875,000, 1,750,000; the last task
copies 875,000 + 0 remainder bytes at offset 2,625,000; and the four chunk
ranges partition `[0, 3500000)` exactly. -/
theorem C9_scenario (m : Mem) (dst src : Nat) :
    (((TaskSet_CopyMemory.create 4).SetUp m dst src 3500000).1).usedTaskCount_ =
        min (1 + 3) 4 ∧
    chunkOff 4 3500000 0 = 0 ∧ chunkLen 4 3500000 0 = 875000 ∧
    chunkOff 4 3500000 1 = 875000 ∧ chunkLen 4 3500000 1 = 875000 ∧
    chunkOff 4 3500000 2 = 1750000 ∧ chunkLen 4 3500000 2 = 875000 ∧
    chunkOff 4 3500000 3 = 2625000 ∧
    chunkLen 4 3500000 3 = 875000 + 3500000 % 4 ∧
    (∀ j, j < 3500000 ↔ ∃! i, i < 4 ∧ covers 4 3500000 i j) := by
  refine ⟨?_, by decide, by decide, by decide, by decide, by decide,
    by decide, by decide, by decide,
    chunks_cover_exactly_once 4 3500000 (by decide)⟩
  rw [SetUp_used, create_tasks_length]

/-- C10: on the degenerate path (`usedTaskCount == 1`) `SetUp` returns
before the per-task configuration loop: every task slot keeps all its
previously stored fields unchanged, only the set-level `usedTaskCount_` is
updated (to 1); the stale slots are harmless because `Execute` and `Wait`
return immediately without touching them. -/
theorem C10_degenerate_frame (s : TaskSet_CopyMemory) (m : Mem)
    (dst src bytes : Nat)
    (h1 : min (1 + bytes / 1000000) s.tasks_.length = 1) :
    ((s.SetUp m dst src bytes).1).tasks_ = s.tasks_ ∧
    ((s.SetUp m dst src bytes).1).usedTaskCount_ = 1 ∧
    (∀ mm eff, ((s.SetUp m dst src bytes).1).Execute mm eff = (mm, eff)) ∧
    (∀ eff, ((s.SetUp m dst src bytes).1).Wait eff = eff) := by
  have hsd := @SetUp_degenerate s m dst src bytes h1
  have hused : ((s.SetUp m dst src bytes).1).usedTaskCount_ = 1 := by
    rw [hsd]
  exact ⟨by rw [hsd], hused, fun mm eff => Execute_noop hused mm eff,
    fun eff => Wait_noop hused eff⟩

/-- Witness for C10: a set whose single slot holds stale parameters from an
earlier parallel-style configuration, reconfigured for a small copy. -/
theorem C10_degenerate_frame_witness :
    (((TaskSet_CopyMemory.mk [⟨0, 4, 7, 8, 9⟩] 4).SetUp (fun a => a) 1 2 5).1).tasks_ =
        (TaskSet_CopyMemory.mk [⟨0, 4, 7, 8, 9⟩] 4).tasks_ ∧
    (((TaskSet_CopyMemory.mk [⟨0, 4, 7, 8, 9⟩] 4).SetUp (fun a => a) 1 2 5).1).usedTaskCount_ = 1 ∧
    (∀ mm eff, (((TaskSet_CopyMemory.mk [⟨0, 4, 7, 8, 9⟩] 4).SetUp (fun a => a) 1 2 5).1).Execute mm eff = (mm, eff)) ∧
    (∀ eff, (((TaskSet_CopyMemory.mk [⟨0, 4, 7, 8, 9⟩] 4).SetUp (fun a => a) 1 2 5).1).Wait eff = eff) :=
  C10_degenerate_frame (TaskSet_CopyMemory.mk [⟨0, 4, 7, 8, 9⟩] 4)
    (fun a => a) 1 2 5 (by decide)
